import Mathlib

/-!
Verification development for the `InformationRetrievalEvaluator` of the
sentence-transformers repository
(`sentence_transformers/evaluation/InformationRetrievalEvaluator.py`).

The evaluator is a chunked top-k retrieval scorer: it receives a query
dictionary, a corpus dictionary and a relevance map, obtains embeddings from
an external encoder, computes cosine similarity scores in
`query_chunk_size` x `corpus_chunk_size` chunks, extracts per-chunk top
`max_k` candidates with `np.argpartition`, merges and sorts them per query
and aggregates Accuracy@k, Precision@k, Recall@k, MRR@k and NDCG@k.

Embedding conventions used here:
* dictionaries are association lists (`List (String × String)` or
  `List (String × Finset String)`), keeping the insertion order of keys that
  Python dictionaries guarantee; keys are assumed distinct as in a dict;
* the similarity matrix is an opaque function `raw : ℕ → ℕ → XScore` from
  (retained-query index, corpus index) to an extended float.  The encoder and
  `pytorch_cos_sim` live outside the repository slice under verification
  (`sentence_transformers.util`), so per the spec the scorer consumes this
  matrix; slicing it per chunk yields exactly the sub-matrix of the fixed
  function, which models the chunked `pytorch_cos_sim` calls;
* machine floats are modelled as `ℚ` plus explicit NaN/±∞ constructors
  (`XScore`); `np.nan_to_num` becomes `nanToNum`;
* `np.argpartition(-scores, max_k)[:, 0:max_k]` selects the `max_k`
  largest-scoring columns of a chunk in an unspecified order; it is
  determinised here as "largest score first, ties by smaller column index",
  and the final Python `sorted(..., key=score, reverse=True)` (a stable sort)
  is modelled by the stable `List.insertionSort` with the score-descending
  relation.  numpy also leaves unspecified *which* of several equally-scoring
  columns at the `max_k` boundary is retained, so cross-chunking statements
  are made only for score rows without ties: `mem_argpartTopK_iff_rank`
  shows that on such rows the index tie-break is inert — membership in a
  chunk's top `max_k` is determined by score rank alone, as the argpartition
  contract demands, so every admissible tie resolution selects the same
  columns;
* every Python exception reachable in `__call__` (ValueError from `max` of an
  empty k-list or a zero `range` step, numpy's argpartition index error,
  ZeroDivisionError from `len(self.queries) == 0` or a zero k in the
  precision/NDCG divisions) is modelled by `evalIR` returning `none`.
-/

namespace IRE

/-- Extended float64 value appearing in a similarity matrix entry: a finite
value (modelled as a rational) or one of the IEEE special values. -/
inductive XScore where
  | fin (q : ℚ)
  | nan
  | pinf
  | ninf
deriving DecidableEq

/-- Largest finite IEEE-754 double, `(2^53 - 1) * 2^971`
(`numpy.finfo(numpy.float64).max`). -/
def float64Max : ℚ := (2 ^ 53 - 1) * 2 ^ 971

/-- Models `np.nan_to_num` with its default arguments (line 113 of the
source): NaN becomes `0.0`, `+inf` becomes the largest finite double, `-inf`
its negation, finite entries are unchanged. -/
def nanToNum : XScore → ℚ
  | .fin q => q
  | .nan => 0
  | .pinf => float64Max
  | .ninf => -float64Max

/-- Constructor inputs of `InformationRetrievalEvaluator`: `queries`
(qid ↦ text), `corpus` (cid ↦ doc) and `relevant_docs` (qid ↦ set of cids),
as ordered association lists. -/
structure IRInput where
  queries : List (String × String)
  corpus : List (String × String)
  relevant_docs : List (String × Finset String)
deriving DecidableEq

/-- The retention test of `__init__` line 38:
`qid in relevant_docs and len(relevant_docs[qid]) > 0`. -/
def retainedQ (rd : List (String × Finset String)) (qid : String) : Bool :=
  match rd.lookup qid with
  | some s => decide (0 < s.card)
  | none => false

/-- The `__init__` loop (lines 36-39) building `self.queries_ids`: iterate
the query keys in order and append those passing the retention test. -/
def queriesIds (inp : IRInput) : List String :=
  inp.queries.foldl
    (fun acc q => if retainedQ inp.relevant_docs q.1 then acc ++ [q.1] else acc) []

/-- `self.corpus_ids = list(corpus.keys())` (line 43). -/
def corpusIds (inp : IRInput) : List String := inp.corpus.map Prod.fst

/-- Configuration fields of the evaluator relevant to `__call__`. -/
structure IRConfig where
  query_chunk_size : ℕ
  corpus_chunk_size : ℕ
  mrr_at_k : List ℕ
  ndcg_at_k : List ℕ
  accuracy_at_k : List ℕ
  precision_recall_at_k : List ℕ
deriving DecidableEq

/-- The `__init__` loops (lines 61-75) building `self.csv_headers`:
`epoch`, `steps`, then one `Accuracy@k` column per accuracy k, then per
precision/recall k a `Precision@k` column immediately followed by a
`Recall@k` column, then the `MRR@k` columns, then the `NDCG@k` columns. -/
def csvHeaders (c : IRConfig) : List String :=
  let h0 := ["epoch", "steps"]
  let h1 := c.accuracy_at_k.foldl (fun h k => h ++ ["Accuracy@" ++ toString k]) h0
  let h2 := c.precision_recall_at_k.foldl
    (fun h k => h ++ ["Precision@" ++ toString k, "Recall@" ++ toString k]) h1
  let h3 := c.mrr_at_k.foldl (fun h k => h ++ ["MRR@" ++ toString k]) h2
  c.ndcg_at_k.foldl (fun h k => h ++ ["NDCG@" ++ toString k]) h3

/-- Header layout as the claim/spec words it ("all Accuracy@k columns, then
all Precision@k columns, then all Recall@k columns, then all MRR@k columns,
then all NDCG@k columns"), written from the spec text for comparison with
`csvHeaders`. -/
def specCsvHeaders (c : IRConfig) : List String :=
  ["epoch", "steps"]
    ++ c.accuracy_at_k.map (fun k => "Accuracy@" ++ toString k)
    ++ c.precision_recall_at_k.map (fun k => "Precision@" ++ toString k)
    ++ c.precision_recall_at_k.map (fun k => "Recall@" ++ toString k)
    ++ c.mrr_at_k.map (fun k => "MRR@" ++ toString k)
    ++ c.ndcg_at_k.map (fun k => "NDCG@" ++ toString k)

/-- Python `range(0, n, step)` for a positive step: the chunk start offsets
`0, step, 2*step, ...` below `n` (lines 102 and 108). -/
def chunkStarts (n step : ℕ) : List ℕ :=
  (List.range ((n + step - 1) / step)).map (· * step)

/-- Flattened chunked iteration: for each chunk start `s`, the indices
`s, s+1, ..., min (s + step) n - 1` of that chunk, in order. -/
def chunkedIdx (n step : ℕ) : List ℕ :=
  (chunkStarts n step).flatMap
    (fun s => (List.range (min (s + step) n - s)).map (s + ·))

/-- Score-descending order with ties broken by smaller index: the
determinisation used for `np.argpartition`'s unspecified tie order. -/
def lexLe (s : ℕ → ℚ) (a b : ℕ) : Prop := s b < s a ∨ (s a = s b ∧ a ≤ b)

/-- Score-descending comparison used by
`sorted(..., key=lambda x: x['score'], reverse=True)` (line 129). -/
def scoreGe (s : ℕ → ℚ) (a b : ℕ) : Prop := s b ≤ s a

instance (s : ℕ → ℚ) : DecidableRel (lexLe s) := fun a b => by
  unfold lexLe; infer_instance

instance (s : ℕ → ℚ) : DecidableRel (scoreGe s) := fun a b => by
  unfold scoreGe; infer_instance

instance (s : ℕ → ℚ) : IsTotal ℕ (lexLe s) where
  total a b := by
    unfold lexLe
    rcases lt_trichotomy (s a) (s b) with h | h | h
    · exact Or.inr (Or.inl h)
    · rcases Nat.le_total a b with hab | hab
      · exact Or.inl (Or.inr ⟨h, hab⟩)
      · exact Or.inr (Or.inr ⟨h.symm, hab⟩)
    · exact Or.inl (Or.inl h)

instance (s : ℕ → ℚ) : IsTrans ℕ (lexLe s) where
  trans a b c hab hbc := by
    unfold lexLe at *
    rcases hab with h1 | ⟨e1, le1⟩
    · rcases hbc with h2 | ⟨e2, _⟩
      · exact Or.inl (h2.trans h1)
      · exact Or.inl (e2 ▸ h1)
    · rcases hbc with h2 | ⟨e2, le2⟩
      · exact Or.inl (e1 ▸ h2)
      · exact Or.inr ⟨e1.trans e2, le1.trans le2⟩

instance (s : ℕ → ℚ) : IsAntisymm ℕ (lexLe s) where
  antisymm a b hab hba := by
    unfold lexLe at hab hba
    rcases hab with h1 | ⟨e1, le1⟩
    · rcases hba with h2 | ⟨e2, _⟩
      · exact absurd (h1.trans h2) (lt_irrefl _)
      · rw [e2] at h1; exact absurd h1 (lt_irrefl _)
    · rcases hba with h2 | ⟨e2, le2⟩
      · rw [e1] at h2; exact absurd h2 (lt_irrefl _)
      · exact Nat.le_antisymm le1 le2

instance (s : ℕ → ℚ) : IsTotal ℕ (scoreGe s) where
  total a b := by unfold scoreGe; exact le_total (s b) (s a)

instance (s : ℕ → ℚ) : IsTrans ℕ (scoreGe s) where
  trans a b c hab hbc := by unfold scoreGe at *; exact hbc.trans hab

/-- The column indices `cs, ..., ce - 1` of a corpus chunk, the columns of
the per-chunk similarity matrix mapped back to global corpus positions. -/
def colIdx (cs ce : ℕ) : List ℕ := (List.range (ce - cs)).map (cs + ·)

/-- Deterministic model of
`np.argpartition(-cos_scores, max_k)[:, 0:max_k]` for one query row and the
corpus chunk `[cs, ce)` (line 116): the `mk` top-scoring column indices,
largest score first, ties by smaller index.  numpy fixes neither the output
order nor which of several tied columns at the `max_k` boundary is retained;
the smaller-index rule is one admissible resolution, and on rows with
pairwise-distinct scores every admissible resolution selects the same
columns (`mem_argpartTopK_iff_rank`). -/
def argpartTopK (s : ℕ → ℚ) (cs ce mk : ℕ) : List ℕ :=
  (List.insertionSort (lexLe s) (colIdx cs ce)).take mk

/-- `np.argpartition(a, kth)` demands `kth < a.shape[-1]`: every corpus chunk
must have strictly more than `mk` columns, otherwise numpy raises. -/
def chunksOk (n ccs mk : ℕ) : Bool :=
  (chunkStarts n ccs).all (fun cs => decide (mk < min (cs + ccs) n - cs))

/-- The candidate list accumulated in `queries_result_list[query_itr]`
(lines 108-123): for each corpus chunk in order, the chunk's top `mk`
column indices. -/
def candidates (s : ℕ → ℚ) (n ccs mk : ℕ) : List ℕ :=
  (chunkStarts n ccs).flatMap (fun cs => argpartTopK s cs (min (cs + ccs) n) mk)

/-- `top_hits` (line 129): the candidate list sorted by score descending with
Python's stable `sorted`. -/
def topHits (s : ℕ → ℚ) (n ccs mk : ℕ) : List ℕ :=
  List.insertionSort (scoreGe s) (candidates s n ccs mk)

/-- `self.relevant_docs[query_id]` (line 130); total via a default `∅`,
only applied to retained query ids, whose key is present. -/
def relSetOf (inp : IRInput) (qid : String) : Finset String :=
  ((inp.relevant_docs.lookup qid).getD ∅)

/-- The retained query id at position `q` of `self.queries_ids`. -/
def qidAt (inp : IRInput) (q : ℕ) : String := (queriesIds inp).getD q ""

/-- `hit['corpus_id'] in query_relevant_docs` for the hit at global corpus
position `i`: membership of `self.corpus_ids[i]` in the relevance set. -/
def hitRel (inp : IRInput) (qid : String) (i : ℕ) : Bool :=
  decide (((corpusIds inp).getD i "") ∈ relSetOf inp qid)

/-- The similarity value actually used after line 113: the raw cosine score
passed through `nan_to_num`. -/
def usedScore (raw : ℕ → ℕ → XScore) (q : ℕ) : ℕ → ℚ :=
  fun c => nanToNum (raw q c)

/-- `max(max(mrr_at_k), max(ndcg_at_k), max(accuracy_at_k),
max(precision_recall_at_k))` (line 85); on ℕ lists, `foldr max 0` of the
concatenation agrees with Python's `max` whenever all four lists are
non-empty (the only case in which line 85 does not raise). -/
def maxK (c : IRConfig) : ℕ :=
  (c.mrr_at_k ++ c.ndcg_at_k ++ c.accuracy_at_k ++ c.precision_recall_at_k).foldr max 0

/-- The fully merged and sorted hit list of retained query `q`. -/
def queryHitsC (c : IRConfig) (inp : IRInput) (raw : ℕ → ℕ → XScore) (q : ℕ) :
    List ℕ :=
  topHits (usedScore raw q) inp.corpus.length c.corpus_chunk_size (maxK c)

/-- Accuracy@k contribution of query `q` (lines 134-138): `1` if at least one
of the top-k hits is relevant, else `0`. -/
def accContrib (c : IRConfig) (inp : IRInput) (raw : ℕ → ℕ → XScore)
    (q k : ℕ) : ℚ :=
  if ((queryHitsC c inp raw q).take k).any (hitRel inp (qidAt inp q)) then 1 else 0

/-- `num_correct` (lines 142-146): relevant hits among the top-k. -/
def numCorrectAt (c : IRConfig) (inp : IRInput) (raw : ℕ → ℕ → XScore)
    (q k : ℕ) : ℕ :=
  ((queryHitsC c inp raw q).take k).countP (hitRel inp (qidAt inp q))

/-- Per-query Precision@k value appended at line 148: `num_correct / k_val`. -/
def precisionVal (c : IRConfig) (inp : IRInput) (raw : ℕ → ℕ → XScore)
    (q k : ℕ) : ℚ :=
  (numCorrectAt c inp raw q k : ℚ) / (k : ℚ)

/-- Per-query Recall@k value appended at line 149:
`num_correct / len(query_relevant_docs)`. -/
def recallVal (c : IRConfig) (inp : IRInput) (raw : ℕ → ℕ → XScore)
    (q k : ℕ) : ℚ :=
  (numCorrectAt c inp raw q k : ℚ) / ((relSetOf inp (qidAt inp q)).card : ℚ)

/-- MRR@k contribution of query `q` (lines 152-156): reciprocal rank
(1-indexed) of the first relevant top-k hit, else `0`. -/
def mrrContrib (c : IRConfig) (inp : IRInput) (raw : ℕ → ℕ → XScore)
    (q k : ℕ) : ℚ :=
  match ((queryHitsC c inp raw q).take k).findIdx? (hitRel inp (qidAt inp q)) with
  | some i => 1 / ((i : ℚ) + 1)
  | none => 0

/-- Pointwise-additive update of a per-k accumulator, one
`dict[k] += v` step. -/
def updAdd (f : ℕ → ℚ) (k : ℕ) (v : ℚ) : ℕ → ℚ :=
  fun j => if j = k then f j + v else f j

/-- Append update of a per-k list accumulator, one `dict[k].append(v)`
step. -/
def updApp {α : Type} (f : ℕ → List α) (k : ℕ) (v : α) : ℕ → List α :=
  fun j => if j = k then f j ++ [v] else f j

/-- Accumulation of a sum-valued metric family over the (chunked) query
iteration: for each query in order, for each `k` in the family's k-list in
order, add the query's contribution to `dict[k]` (the Accuracy and MRR
accumulators of lines 92/96/134-156). -/
def accumFamily (ks : List ℕ) (contrib : ℕ → ℕ → ℚ) (qs : List ℕ) : ℕ → ℚ :=
  qs.foldl (fun f q => ks.foldl (fun g k => updAdd g k (contrib q k)) f) (fun _ => 0)

/-- Accumulation of a list-valued metric family over the (chunked) query
iteration (the precision/recall/NDCG list accumulators of lines
94-97/141-164). -/
def accumLists {α : Type} (ks : List ℕ) (val : ℕ → ℕ → α) (qs : List ℕ) :
    ℕ → List α :=
  qs.foldl (fun f q => ks.foldl (fun g k => updApp g k (val q k)) f) (fun _ => [])

/-- `np.mean` of a list: sum divided by length. -/
def npMean {α : Type} [DivisionRing α] (l : List α) : α :=
  l.sum / (l.length : α)

/-- Number of retained queries, `len(self.queries)`. -/
def numQ (inp : IRInput) : ℕ := (queriesIds inp).length

/-- The retained-query index sequence actually iterated by the two nested
query loops (lines 102-126): chunk by chunk of size `query_chunk_size`. -/
def qIdxs (c : IRConfig) (inp : IRInput) : List ℕ :=
  chunkedIdx (numQ inp) c.query_chunk_size

/-- Final Accuracy@k (line 168): accumulated hit count divided by
`len(self.queries)`. -/
def accMetric (c : IRConfig) (inp : IRInput) (raw : ℕ → ℕ → XScore) (k : ℕ) : ℚ :=
  accumFamily c.accuracy_at_k (accContrib c inp raw) (qIdxs c inp) k / (numQ inp : ℚ)

/-- Final Precision@k (line 171): `np.mean(precisions_at_k[k])`. -/
def precMetric (c : IRConfig) (inp : IRInput) (raw : ℕ → ℕ → XScore) (k : ℕ) : ℚ :=
  npMean (accumLists c.precision_recall_at_k (precisionVal c inp raw) (qIdxs c inp) k)

/-- Final Recall@k (line 174): `np.mean(recall_at_k[k])`. -/
def recallMetric (c : IRConfig) (inp : IRInput) (raw : ℕ → ℕ → XScore) (k : ℕ) : ℚ :=
  npMean (accumLists c.precision_recall_at_k (recallVal c inp raw) (qIdxs c inp) k)

/-- Final MRR@k (line 180): accumulated reciprocal-rank sum divided by
`len(self.queries)`. -/
def mrrAgg (c : IRConfig) (inp : IRInput) (raw : ℕ → ℕ → XScore) (k : ℕ) : ℚ :=
  accumFamily c.mrr_at_k (mrrContrib c inp raw) (qIdxs c inp) k / (numQ inp : ℚ)

/-- The finite-valued outputs of one `__call__`. -/
structure EvalResult where
  num_hits_at_k : List (ℕ × ℚ)
  precisions_at_k : List (ℕ × ℚ)
  recall_at_k : List (ℕ × ℚ)
  mrrs : List (ℕ × ℚ)
  retScore : ℚ
deriving DecidableEq

/-- Guard collecting every Python exception reachable in `__call__`:
`max()` of an empty k-list (line 85), `range` with step 0 (lines 102/108),
numpy's argpartition bound (line 116), ZeroDivisionError from
`num_correct / k_val` or the NDCG `0/0` with a zero k (lines 148/163), and
ZeroDivisionError from `len(self.queries) == 0` at aggregation
(lines 168/180).  `__call__` returns a value exactly when this holds. -/
def evalOk (c : IRConfig) (inp : IRInput) : Bool :=
  decide (c.mrr_at_k ≠ [] ∧ c.ndcg_at_k ≠ [] ∧ c.accuracy_at_k ≠ [] ∧
    c.precision_recall_at_k ≠ [] ∧
    0 < c.query_chunk_size ∧ 0 < c.corpus_chunk_size ∧
    0 < numQ inp ∧
    chunksOk inp.corpus.length c.corpus_chunk_size (maxK c) = true ∧
    0 ∉ c.precision_recall_at_k ∧ 0 ∉ c.ndcg_at_k)

/-- The evaluation operation `__call__` (finite-valued part): `none` models
an uncaught Python exception; otherwise the per-family metric dictionaries
and the returned scalar `MRR[max(self.mrr_at_k)]` (line 229). -/
def evalIR (c : IRConfig) (inp : IRInput) (raw : ℕ → ℕ → XScore) :
    Option EvalResult :=
  if evalOk c inp then
    some
      { num_hits_at_k := c.accuracy_at_k.map (fun k => (k, accMetric c inp raw k))
        precisions_at_k := c.precision_recall_at_k.map (fun k => (k, precMetric c inp raw k))
        recall_at_k := c.precision_recall_at_k.map (fun k => (k, recallMetric c inp raw k))
        mrrs := c.mrr_at_k.map (fun k => (k, mrrAgg c inp raw k))
        retScore := mrrAgg c inp raw (c.mrr_at_k.foldr max 0) }
  else none

/-- `compute_dcg_at_k` (lines 231-236): sum over the first
`min(len(relevances), k)` positions of `relevances[i] / log2(i + 2)`. -/
noncomputable def computeDcgAtK (relevances : List ℕ) (k : ℕ) : ℝ :=
  ((List.range (min relevances.length k)).map
    (fun i => (relevances.getD i 0 : ℝ) / Real.logb 2 ((i : ℝ) + 2))).sum

/-- Per-query NDCG@k value appended at lines 159-164: DCG of the binary
relevance sequence of the top-k hits divided by DCG of the all-ones sequence
of length `len(query_relevant_docs)`. -/
noncomputable def ndcgVal (c : IRConfig) (inp : IRInput)
    (raw : ℕ → ℕ → XScore) (q k : ℕ) : ℝ :=
  computeDcgAtK (((queryHitsC c inp raw q).take k).map
      (fun i => if hitRel inp (qidAt inp q) i then 1 else 0)) k /
    computeDcgAtK (List.replicate (relSetOf inp (qidAt inp q)).card 1) k

/-- Final NDCG@k (line 177): `np.mean(ndcg[k])`. -/
noncomputable def ndcgMetric (c : IRConfig) (inp : IRInput)
    (raw : ℕ → ℕ → XScore) (k : ℕ) : ℝ :=
  npMean (accumLists c.ndcg_at_k (ndcgVal c inp raw) (qIdxs c inp) k)

/-- The persisted report row `output_data` (lines 211-223), over the final
metric value maps: `epoch`, `steps`, then the accuracy values, then per
precision/recall k the precision value immediately followed by the recall
value, then the MRR values, then the NDCG values. -/
noncomputable def outputData (c : IRConfig) (epoch steps : ℤ)
    (acc prec recl mrr : ℕ → ℚ) (ndcg : ℕ → ℝ) : List ℝ :=
  let d0 : List ℝ := [(epoch : ℝ), (steps : ℝ)]
  let d1 := c.accuracy_at_k.foldl (fun d k => d ++ [((acc k : ℚ) : ℝ)]) d0
  let d2 := c.precision_recall_at_k.foldl
    (fun d k => d ++ [((prec k : ℚ) : ℝ), ((recl k : ℚ) : ℝ)]) d1
  let d3 := c.mrr_at_k.foldl (fun d k => d ++ [((mrr k : ℚ) : ℝ)]) d2
  c.ndcg_at_k.foldl (fun d k => d ++ [ndcg k]) d3

/-- Concrete one-query, two-document instance used by witnesses and
counterexamples: query `q1`, corpus `d1, d2`, relevance set `{d1}`. -/
def inpW : IRInput :=
  { queries := [("q1", "q")]
    corpus := [("d1", "x"), ("d2", "y")]
    relevant_docs := [("q1", {"d1"})] }

/-- Concrete one-query, three-document instance with relevance set `{d2}`. -/
def inpW3 : IRInput :=
  { queries := [("q1", "q")]
    corpus := [("d1", "x"), ("d2", "y"), ("d3", "z")]
    relevant_docs := [("q1", {"d2"})] }

/-- Configuration with every k-list equal to `[1]` and valid chunking for
`inpW`. -/
def cfgW : IRConfig :=
  { query_chunk_size := 1
    corpus_chunk_size := 2
    mrr_at_k := [1]
    ndcg_at_k := [1]
    accuracy_at_k := [1]
    precision_recall_at_k := [1] }

/-- Same as `cfgW` with different, still valid, chunk sizes. -/
def cfgW2 : IRConfig :=
  { cfgW with query_chunk_size := 2, corpus_chunk_size := 3 }

/-- Same as `cfgW` with `corpus_chunk_size := 1`: the corpus chunks of
`inpW` then have width `1 ≤ max_k`, the bound `np.argpartition` rejects. -/
def cfgWbad : IRConfig :=
  { cfgW with corpus_chunk_size := 1 }

/-- Same as `cfgW` with an empty `mrr_at_k` list. -/
def cfgWempty : IRConfig :=
  { cfgW with mrr_at_k := [] }

/-- Configuration with every k-list equal to `[1, 2]`, valid for `inpW3`. -/
def cfgW12 : IRConfig :=
  { query_chunk_size := 1
    corpus_chunk_size := 3
    mrr_at_k := [1, 2]
    ndcg_at_k := [1, 2]
    accuracy_at_k := [1, 2]
    precision_recall_at_k := [1, 2] }

/-- Header-layout configuration with two precision/recall k values. -/
def cfgHdr : IRConfig :=
  { query_chunk_size := 1
    corpus_chunk_size := 2
    mrr_at_k := [10]
    ndcg_at_k := [10]
    accuracy_at_k := [1]
    precision_recall_at_k := [1, 3] }

/-- Scores for `inpW`: document `d1` scores 1, all others 0 (the relevant
document ranks first). -/
def rawW : ℕ → ℕ → XScore := fun _ c => if c = 0 then XScore.fin 1 else XScore.fin 0

/-- Scores for `inpW` with a positive-infinity entry at the irrelevant
document `d2`. -/
def rawWinf : ℕ → ℕ → XScore := fun _ c => if c = 0 then XScore.fin 1 else XScore.pinf

/-- Scores for `inpW3`: relevant `d2` first, then `d1`, then `d3`. -/
def rawW3 : ℕ → ℕ → XScore :=
  fun _ c => if c = 1 then XScore.fin 1 else if c = 0 then XScore.fin (1/2) else XScore.fin 0

end IRE

namespace IRE

/-- The chunk grid covers `n`: `ceil(n / step) * step ≥ n`. -/
theorem le_ceil_mul (n step : ℕ) (h : 0 < step) :
    n ≤ ((n + step - 1) / step) * step := by
  have h2 : n + step - 1 < (n + step - 1) / step * step + step :=
    Nat.lt_div_mul_add h
  omega

/-- The start of the chunk containing a position `x < n` is a chunk start. -/
theorem div_mul_mem_chunkStarts (n step x : ℕ) (h : 0 < step) (hx : x < n) :
    (x / step) * step ∈ chunkStarts n step := by
  unfold chunkStarts
  refine List.mem_map.mpr ⟨x / step, List.mem_range.mpr ?_, rfl⟩
  have h2 : n + step - 1 < (n + step - 1) / step * step + step :=
    Nat.lt_div_mul_add h
  have h3 : x / step * step ≤ x := Nat.div_mul_le_self x step
  by_contra hq
  push_neg at hq
  have h4 : ((n + step - 1) / step) * step ≤ (x / step) * step :=
    Nat.mul_le_mul_right _ hq
  omega

/-- Concatenating the first `c` chunks enumerates `0, ..., min (c*step) n - 1`. -/
theorem chunkConcat_eq (step n : ℕ) (c : ℕ) :
    (List.range c).flatMap
        (fun i => (List.range (min (i * step + step) n - i * step)).map (i * step + ·))
      = List.range (min (c * step) n) := by
  induction c with
  | zero => simp
  | succ c ih =>
    rw [List.range_succ, List.flatMap_append, ih, List.flatMap_cons, List.flatMap_nil,
      List.append_nil]
    rcases le_or_lt n (c * step) with hcn | hcn
    · have h1 : min (c * step) n = n := min_eq_right hcn
      have h2 : min (c * step + step) n = n :=
        min_eq_right (hcn.trans (Nat.le_add_right _ _))
      have h3 : min ((c + 1) * step) n = n := by
        rw [Nat.succ_mul]; exact min_eq_right (hcn.trans (Nat.le_add_right _ _))
      rw [h1, h2, h3, Nat.sub_eq_zero_of_le hcn]
      simp
    · have h1 : min (c * step) n = c * step := min_eq_left hcn.le
      have hle : c * step ≤ min (c * step + step) n :=
        le_min (Nat.le_add_right _ _) hcn.le
      have hb : c * step + (min (c * step + step) n - c * step) = min (c * step + step) n :=
        Nat.add_sub_cancel' hle
      have h4 : min ((c + 1) * step) n = min (c * step + step) n := by rw [Nat.succ_mul]
      rw [h1, h4, ← hb, List.range_add, Nat.add_sub_cancel_left]

/-- For a positive query chunk size, the two nested query loops enumerate
exactly the retained-query indices `0, ..., n-1` in order. -/
theorem chunkedIdx_eq (n step : ℕ) (h : 0 < step) :
    chunkedIdx n step = List.range n := by
  unfold chunkedIdx chunkStarts
  rw [List.flatMap_map, chunkConcat_eq step n]
  congr 1
  exact min_eq_right (le_ceil_mul n step h)

/-- Membership in a chunk's column index list. -/
theorem mem_colIdx {cs ce x : ℕ} : x ∈ colIdx cs ce ↔ cs ≤ x ∧ x < ce := by
  unfold colIdx
  simp only [List.mem_map, List.mem_range]
  constructor
  · rintro ⟨j, hj, rfl⟩; omega
  · rintro ⟨h1, h2⟩; exact ⟨x - cs, by omega, by omega⟩

theorem nodup_colIdx (cs ce : ℕ) : (colIdx cs ce).Nodup :=
  (List.nodup_range _).map (fun a b h => by omega)

theorem colIdx_sublist (cs ce n : ℕ) (h : ce ≤ n) :
    (colIdx cs ce).Sublist (List.range n) := by
  rcases le_or_lt cs ce with h1 | h1
  · have hcs : cs ≤ n := h1.trans h
    have hr : List.range n = List.range cs ++ (List.range (n - cs)).map (cs + ·) := by
      have := List.range_add cs (n - cs)
      rw [Nat.add_sub_cancel' hcs] at this
      simpa using this
    rw [hr]
    refine List.Sublist.trans ?_ (List.sublist_append_right _ _)
    exact (List.range_sublist.mpr (by omega)).map _
  · have hz : ce - cs = 0 := by omega
    simp [colIdx, hz]

/-- `foldr max 0` of a non-empty ℕ list is one of its elements. -/
theorem foldr_max_mem (l : List ℕ) (h : l ≠ []) : l.foldr max 0 ∈ l := by
  induction l with
  | nil => exact absurd rfl h
  | cons a l ih =>
    rcases eq_or_ne l [] with h0 | h0
    · subst h0; simp
    · rw [List.foldr_cons]
      rcases max_choice a (l.foldr max 0) with h1 | h1 <;> rw [h1]
      · exact List.mem_cons_self _ _
      · exact List.mem_cons_of_mem _ (ih h0)

/-- Every element of a ℕ list is bounded by its `foldr max 0`. -/
theorem le_foldr_max (l : List ℕ) (a : ℕ) (h : a ∈ l) : a ≤ l.foldr max 0 := by
  induction l with
  | nil => cases h
  | cons b l ih =>
    rw [List.foldr_cons]
    rcases List.mem_cons.mp h with h1 | h1
    · subst h1; exact le_max_left _ _
    · exact (ih h1).trans (le_max_right _ _)

/-- Every requested k value is at most `max_k`. -/
theorem le_maxK_of_mem {c : IRConfig} {k : ℕ}
    (h : k ∈ c.mrr_at_k ∨ k ∈ c.ndcg_at_k ∨ k ∈ c.accuracy_at_k ∨
      k ∈ c.precision_recall_at_k) :
    k ≤ maxK c := by
  unfold maxK
  apply le_foldr_max
  rcases h with h | h | h | h <;> simp [h]

/-- The `__init__` retention loop equals a filter of the query keys in input
order. -/
theorem queriesIds_eq_filter (inp : IRInput) :
    queriesIds inp = (inp.queries.map Prod.fst).filter (retainedQ inp.relevant_docs) := by
  unfold queriesIds
  suffices h : ∀ (l : List (String × String)) (acc : List String),
      l.foldl (fun acc q => if retainedQ inp.relevant_docs q.1 then acc ++ [q.1] else acc) acc
        = acc ++ (l.map Prod.fst).filter (retainedQ inp.relevant_docs) by
    simpa using h inp.queries []
  intro l
  induction l with
  | nil => intro acc; simp
  | cons p l ih =>
    intro acc
    rw [List.foldl_cons]
    by_cases hp : retainedQ inp.relevant_docs p.1
    · rw [if_pos hp, ih, List.map_cons, List.filter_cons, if_pos hp, List.append_assoc]
      rfl
    · rw [if_neg hp, ih, List.map_cons, List.filter_cons, if_neg hp]

/-- The retained query id at any valid position passes the retention test. -/
theorem qidAt_retained (inp : IRInput) (q : ℕ) (hq : q < numQ inp) :
    retainedQ inp.relevant_docs (qidAt inp q) = true := by
  have h1 : qidAt inp q ∈ queriesIds inp := by
    unfold qidAt
    rw [List.getD_eq_getElem _ _ hq]
    exact List.getElem_mem hq
  rw [queriesIds_eq_filter] at h1
  exact (List.mem_filter.mp h1).2

/-- Construction invariant: the relevance set of a retained query is
non-empty. -/
theorem relSetOf_card_pos (inp : IRInput) (q : ℕ) (hq : q < numQ inp) :
    0 < (relSetOf inp (qidAt inp q)).card := by
  have h := qidAt_retained inp q hq
  unfold retainedQ at h
  unfold relSetOf
  cases hcase : inp.relevant_docs.lookup (qidAt inp q) with
  | none => rw [hcase] at h; simp at h
  | some s =>
    rw [hcase] at h
    simp only [decide_eq_true_eq] at h
    simpa [hcase] using h

/-- Value of the per-k sum accumulator after one pass over a k-list. -/
theorem foldKs_add_apply (ks : List ℕ) (v : ℕ → ℚ) (f : ℕ → ℚ) (j : ℕ) :
    (ks.foldl (fun g k => updAdd g k (v k)) f) j = f j + (ks.count j : ℚ) * v j := by
  induction ks generalizing f with
  | nil => simp
  | cons k ks ih =>
    rw [List.foldl_cons, ih]
    unfold updAdd
    rcases eq_or_ne j k with hk | hk
    · subst hk
      rw [if_pos rfl, List.count_cons]
      simp only [beq_self_eq_true, if_true]
      push_cast
      ring
    · rw [if_neg hk, List.count_cons]
      have hbe : (k == j) = false := beq_eq_false_iff_ne.mpr (Ne.symm hk)
      rw [hbe]
      simp

/-- The per-k sum accumulator over the whole query iteration: the value at
`j` is `count of j in the k-list` times the sum of the per-query
contributions at `j`. -/
theorem accumFamily_apply (ks : List ℕ) (contrib : ℕ → ℕ → ℚ) (qs : List ℕ) (j : ℕ) :
    accumFamily ks contrib qs j
      = (ks.count j : ℚ) * ((qs.map (fun q => contrib q j)).sum) := by
  unfold accumFamily
  suffices h : ∀ f : ℕ → ℚ,
      (qs.foldl (fun f q => ks.foldl (fun g k => updAdd g k (contrib q k)) f) f) j
        = f j + (ks.count j : ℚ) * ((qs.map (fun q => contrib q j)).sum) by
    simpa using h (fun _ => 0)
  induction qs with
  | nil => intro f; simp
  | cons q qs ih =>
    intro f
    rw [List.foldl_cons, ih, foldKs_add_apply]
    rw [List.map_cons, List.sum_cons]
    ring

/-- Value of the per-k list accumulator after one pass over a k-list. -/
theorem foldKs_app_apply {α : Type} (ks : List ℕ) (v : ℕ → α) (f : ℕ → List α) (j : ℕ) :
    (ks.foldl (fun g k => updApp g k (v k)) f) j
      = f j ++ List.replicate (ks.count j) (v j) := by
  induction ks generalizing f with
  | nil => simp
  | cons k ks ih =>
    rw [List.foldl_cons, ih]
    unfold updApp
    rcases eq_or_ne j k with hk | hk
    · subst hk
      rw [if_pos rfl, List.count_cons]
      simp only [beq_self_eq_true, if_true]
      rw [List.append_assoc, List.singleton_append, ← List.replicate_succ]
    · rw [if_neg hk, List.count_cons]
      have hbe : (k == j) = false := beq_eq_false_iff_ne.mpr (Ne.symm hk)
      rw [hbe]
      simp

/-- The per-k list accumulator over the whole query iteration: the list at
`j` is, per query in order, `count of j in the k-list` copies of the
per-query value at `j`. -/
theorem accumLists_apply {α : Type} (ks : List ℕ) (val : ℕ → ℕ → α) (qs : List ℕ) (j : ℕ) :
    accumLists ks val qs j
      = qs.flatMap (fun q => List.replicate (ks.count j) (val q j)) := by
  unfold accumLists
  suffices h : ∀ f : ℕ → List α,
      (qs.foldl (fun f q => ks.foldl (fun g k => updApp g k (val q k)) f) f) j
        = f j ++ qs.flatMap (fun q => List.replicate (ks.count j) (val q j)) by
    simpa using h (fun _ => [])
  induction qs with
  | nil => intro f; simp
  | cons q qs ih =>
    intro f
    rw [List.foldl_cons, ih, foldKs_app_apply, List.flatMap_cons, List.append_assoc]

/-- A fold appending one element per step is an append of a map. -/
theorem foldl_append_singleton {α β : Type} (l : List β) (f : β → α) (init : List α) :
    l.foldl (fun d k => d ++ [f k]) init = init ++ l.map f := by
  induction l generalizing init with
  | nil => simp
  | cons k l ih => rw [List.foldl_cons, ih, List.map_cons, List.append_assoc]; rfl

/-- A fold appending two elements per step is an append of a flatMap of
pairs. -/
theorem foldl_append_pair {α β : Type} (l : List β) (f g : β → α) (init : List α) :
    l.foldl (fun d k => d ++ [f k, g k]) init
      = init ++ l.flatMap (fun k => [f k, g k]) := by
  induction l generalizing init with
  | nil => simp
  | cons k l ih => rw [List.foldl_cons, ih, List.flatMap_cons, List.append_assoc]

end IRE

namespace IRE

/-- `orderedInsert` only compares the inserted element against list members,
so two relations agreeing on those comparisons insert identically. -/
theorem orderedInsert_congr {r₁ r₂ : ℕ → ℕ → Prop} [DecidableRel r₁] [DecidableRel r₂]
    (a : ℕ) (L : List ℕ) (h : ∀ b ∈ L, (r₁ a b ↔ r₂ a b)) :
    List.orderedInsert r₁ a L = List.orderedInsert r₂ a L := by
  induction L with
  | nil => rfl
  | cons b t ih =>
    simp only [List.orderedInsert]
    by_cases hr : r₁ a b
    · rw [if_pos hr, if_pos ((h b (List.mem_cons_self b t)).mp hr)]
    · rw [if_neg hr, if_neg (fun h2 => hr ((h b (List.mem_cons_self b t)).mpr h2))]
      rw [ih (fun b hb => h b (List.mem_cons_of_mem _ hb))]

/-- Stability of the final per-query sort: on a candidate list whose
equal-score elements are already in index order, the stable score-descending
sort (Python's `sorted(..., reverse=True)`) agrees with the fully
deterministic lexicographic sort. -/
theorem insertionSort_scoreGe_eq_lexLe (s : ℕ → ℚ) (l : List ℕ)
    (h : l.Pairwise (fun a b => s a = s b → a ≤ b)) :
    List.insertionSort (scoreGe s) l = List.insertionSort (lexLe s) l := by
  induction l with
  | nil => rfl
  | cons a t ih =>
    obtain ⟨ha, ht⟩ := List.pairwise_cons.mp h
    show List.orderedInsert (scoreGe s) a (List.insertionSort (scoreGe s) t)
      = List.orderedInsert (lexLe s) a (List.insertionSort (lexLe s) t)
    rw [ih ht]
    apply orderedInsert_congr
    intro b hb
    have hbt : b ∈ t := (List.perm_insertionSort (lexLe s) t).mem_iff.mp hb
    constructor
    · intro h1
      rcases h1.lt_or_eq with hlt | heq
      · exact Or.inl hlt
      · exact Or.inr ⟨heq.symm, ha b hbt heq.symm⟩
    · intro h2
      rcases h2 with hlt | ⟨heq, _⟩
      · exact hlt.le
      · exact le_of_eq heq.symm

/-- The chunk starts are spaced at least one chunk size apart. -/
theorem chunkStarts_pairwise (n step : ℕ) :
    (chunkStarts n step).Pairwise (fun c1 c2 => c1 + step ≤ c2) := by
  unfold chunkStarts
  rw [List.pairwise_map]
  refine (List.pairwise_lt_range _).imp ?_
  intro a b hab
  have h1 : (a + 1) * step ≤ b * step := Nat.mul_le_mul_right step hab
  rw [Nat.add_mul, Nat.one_mul] at h1
  exact h1

/-- Chunk top-k elements are chunk columns. -/
theorem argpartTopK_subset (s : ℕ → ℚ) (cs ce mk : ℕ) :
    ∀ x ∈ argpartTopK s cs ce mk, x ∈ colIdx cs ce := by
  intro x hx
  exact (List.perm_insertionSort (lexLe s) _).mem_iff.mp (List.mem_of_mem_take hx)

/-- A chunk's top-k list is lexicographically sorted. -/
theorem argpartTopK_pairwise (s : ℕ → ℚ) (cs ce mk : ℕ) :
    (argpartTopK s cs ce mk).Pairwise (lexLe s) :=
  List.Pairwise.sublist (List.take_sublist _ _)
    (List.sorted_insertionSort (lexLe s) (colIdx cs ce))

/-- A chunk's top-k list has no duplicates. -/
theorem argpartTopK_nodup (s : ℕ → ℚ) (cs ce mk : ℕ) :
    (argpartTopK s cs ce mk).Nodup :=
  List.Nodup.sublist (List.take_sublist _ _)
    ((List.perm_insertionSort (lexLe s) _).nodup_iff.mpr (nodup_colIdx cs ce))

/-- Structure of the merged candidate list: equal-score entries appear in
index order (so the stable final sort is deterministic), and there are no
duplicate corpus indices. -/
theorem candidates_pairwise (s : ℕ → ℚ) (n ccs mk : ℕ) :
    (candidates s n ccs mk).Pairwise (fun a b => (s a = s b → a ≤ b) ∧ a ≠ b) := by
  unfold candidates
  rw [List.flatMap_def, List.pairwise_flatten]
  constructor
  · intro l hl
    rw [List.mem_map] at hl
    obtain ⟨cs, _, rfl⟩ := hl
    have h1 := argpartTopK_pairwise s cs (min (cs + ccs) n) mk
    have h2 := argpartTopK_nodup s cs (min (cs + ccs) n) mk
    refine (h1.and h2).imp ?_
    intro a b hab
    refine ⟨fun he => ?_, hab.2⟩
    rcases hab.1 with hlt | hle
    · rw [he] at hlt; exact absurd hlt (lt_irrefl _)
    · exact hle.2
  · rw [List.pairwise_map]
    refine (chunkStarts_pairwise n ccs).imp ?_
    intro c1 c2 h12 x hx y hy
    have hx2 := (mem_colIdx.mp (argpartTopK_subset s _ _ _ x hx)).2
    have hy1 := (mem_colIdx.mp (argpartTopK_subset s _ _ _ y hy)).1
    have hxy : x < y := by
      have hx3 : x < c1 + ccs := lt_of_lt_of_le hx2 (min_le_left _ _)
      omega
    exact ⟨fun _ => hxy.le, hxy.ne⟩

theorem candidates_tie (s : ℕ → ℚ) (n ccs mk : ℕ) :
    (candidates s n ccs mk).Pairwise (fun a b => s a = s b → a ≤ b) :=
  (candidates_pairwise s n ccs mk).imp (fun h => h.1)

theorem candidates_nodup (s : ℕ → ℚ) (n ccs mk : ℕ) :
    (candidates s n ccs mk).Nodup :=
  (candidates_pairwise s n ccs mk).imp (fun h => h.2)

theorem candidates_lt (s : ℕ → ℚ) (n ccs mk : ℕ) :
    ∀ x ∈ candidates s n ccs mk, x < n := by
  intro x hx
  unfold candidates at hx
  rw [List.mem_flatMap] at hx
  obtain ⟨cs, _, hx⟩ := hx
  have h2 := (mem_colIdx.mp (argpartTopK_subset s _ _ _ x hx)).2
  exact lt_of_lt_of_le h2 (min_le_right _ _)

/-- Rank characterisation of take-prefixes of a sorted duplicate-free list:
an element lies among the first `m` entries iff fewer than `m` list elements
are strictly before it. -/
theorem mem_take_sorted_iff {r : ℕ → ℕ → Prop} [DecidableRel r] [IsAntisymm ℕ r]
    (S : List ℕ) (hs : S.Sorted r) (hn : S.Nodup) (x m : ℕ) :
    x ∈ S.take m ↔ x ∈ S ∧ S.countP (fun y => decide (r y x ∧ y ≠ x)) < m := by
  induction S generalizing m with
  | nil => simp
  | cons a S ih =>
    obtain ⟨har, hs2⟩ := List.sorted_cons.mp hs
    obtain ⟨han, hn2⟩ := List.nodup_cons.mp hn
    cases m with
    | zero => simp
    | succ m =>
      rw [List.take_succ_cons, List.countP_cons]
      by_cases hxa : x = a
      · subst hxa
        have hcnt : S.countP (fun y => decide (r y x ∧ y ≠ x)) = 0 := by
          rw [List.countP_eq_zero]
          intro y hy
          simp only [decide_eq_true_eq, not_and, Decidable.not_not]
          intro hry
          exact IsAntisymm.antisymm _ _ hry (har y hy)
        have hpa : (decide (r x x ∧ x ≠ x)) = false := by simp
        rw [hcnt, hpa]
        simp
      · rw [List.mem_cons, List.mem_cons, ih hs2 hn2]
        simp only [hxa, false_or]
        by_cases hxS : x ∈ S
        · have hax : r a x := har x hxS
          have hpa : (decide (r a x ∧ a ≠ x)) = true := by
            simp only [decide_eq_true_eq]
            exact ⟨hax, fun h => hxa h.symm⟩
          rw [hpa]
          simp only [if_true]
          constructor
          · rintro ⟨h1, h2⟩; exact ⟨h1, by omega⟩
          · rintro ⟨h1, h2⟩; exact ⟨h1, by omega⟩
        · simp [hxS]
  
/-- Rank characterisation for the lexicographic sort of an arbitrary
duplicate-free list. -/
theorem mem_take_sort_iff (s : ℕ → ℚ) (A : List ℕ) (hA : A.Nodup) (x m : ℕ) :
    x ∈ (List.insertionSort (lexLe s) A).take m ↔
      x ∈ A ∧ A.countP (fun y => decide (lexLe s y x ∧ y ≠ x)) < m := by
  have hperm := List.perm_insertionSort (lexLe s) A
  rw [mem_take_sorted_iff _ (List.sorted_insertionSort _ _) (hperm.nodup_iff.mpr hA)]
  rw [hperm.mem_iff, hperm.countP_eq]

/-- On a score row without ties inside the chunk, the index tie-break of the
determinised selection never fires: membership in the chunk's top `mk` is
exactly the `np.argpartition` contract — fewer than `mk` chunk columns score
strictly higher — so every admissible resolution of numpy's unspecified tie
order selects the same columns. -/
theorem mem_argpartTopK_iff_rank (s : ℕ → ℚ) (cs ce mk x : ℕ)
    (hinj : ∀ a b, a ∈ colIdx cs ce → b ∈ colIdx cs ce → a ≠ b → s a ≠ s b) :
    x ∈ argpartTopK s cs ce mk ↔
      x ∈ colIdx cs ce ∧
        (colIdx cs ce).countP (fun y => decide (s x < s y)) < mk := by
  unfold argpartTopK
  rw [mem_take_sort_iff s _ (nodup_colIdx cs ce)]
  by_cases hx : x ∈ colIdx cs ce
  · have hcnt : (colIdx cs ce).countP (fun y => decide (lexLe s y x ∧ y ≠ x))
        = (colIdx cs ce).countP (fun y => decide (s x < s y)) := by
      apply List.countP_congr
      intro y hy
      simp only [decide_eq_true_eq]
      by_cases hyx : y = x
      · subst hyx
        constructor
        · rintro ⟨_, h2⟩
          exact absurd rfl h2
        · intro h2
          exact absurd h2 (lt_irrefl _)
      · have hne : s y ≠ s x := hinj y x hy hx hyx
        constructor
        · rintro ⟨h1, _⟩
          rcases h1 with h1 | ⟨h1, _⟩
          · exact h1
          · exact absurd h1 hne
        · intro h1
          exact ⟨Or.inl h1, hyx⟩
    rw [hcnt]
  · simp [hx]

/-- Two sorted duplicate-free lists agree on their first `m` entries when one
is contained in the other and the larger one's first `m` entries all belong
to the smaller one. -/
theorem sorted_take_eq_of_superset {r : ℕ → ℕ → Prop} [IsAntisymm ℕ r]
    (m : ℕ) : ∀ (S T : List ℕ), S.Sorted r → T.Sorted r → S.Nodup → T.Nodup →
    (∀ x ∈ S, x ∈ T) → (∀ x ∈ T.take m, x ∈ S) → S.take m = T.take m := by
  induction m with
  | zero => intro S T _ _ _ _ _ _; simp
  | succ m ih =>
    intro S T hS hT hSn hTn hsub hsup
    cases T with
    | nil =>
      have hS0 : S = [] :=
        List.eq_nil_iff_forall_not_mem.mpr (fun a ha => by simpa using hsub a ha)
      rw [hS0]
    | cons t T' =>
      have ht : t ∈ S := hsup t (by rw [List.take_succ_cons]; exact List.mem_cons_self _ _)
      cases S with
      | nil => exact absurd ht (List.not_mem_nil t)
      | cons s S' =>
        obtain ⟨hSr, hS2⟩ := List.sorted_cons.mp hS
        obtain ⟨hTr, hT2⟩ := List.sorted_cons.mp hT
        obtain ⟨hSnn, hSn2⟩ := List.nodup_cons.mp hSn
        obtain ⟨hTnn, hTn2⟩ := List.nodup_cons.mp hTn
        have hst : s = t := by
          rcases List.mem_cons.mp (hsub s (List.mem_cons_self s S')) with h | h
          · exact h
          · rcases List.mem_cons.mp ht with h2 | h2
            · exact h2.symm
            · exact IsAntisymm.antisymm _ _ (hSr t h2) (hTr s h)
        subst hst
        rw [List.take_succ_cons, List.take_succ_cons]
        congr 1
        apply ih S' T' hS2 hT2 hSn2 hTn2
        · intro x hx
          rcases List.mem_cons.mp (hsub x (List.mem_cons_of_mem _ hx)) with h | h
          · exact absurd (h ▸ hx) hSnn
          · exact h
        · intro x hx
          have hxS := hsup x (by rw [List.take_succ_cons]; exact List.mem_cons_of_mem _ hx)
          rcases List.mem_cons.mp hxS with h | h
          · exact absurd (h ▸ List.mem_of_mem_take hx) hTnn
          · exact h

end IRE

namespace IRE

/-- Core chunking-invariance lemma: for any positive corpus chunk size, the
first `k ≤ mk` entries of the merged-and-sorted hit list coincide with the
first `k` entries of the lexicographic ranking of the whole corpus — in
particular they do not depend on the chunk size. -/
theorem topHits_take_eq (s : ℕ → ℚ) (n ccs mk k : ℕ) (hccs : 0 < ccs) (hk : k ≤ mk) :
    (topHits s n ccs mk).take k
      = (List.insertionSort (lexLe s) (List.range n)).take k := by
  have h1 : topHits s n ccs mk = List.insertionSort (lexLe s) (candidates s n ccs mk) :=
    insertionSort_scoreGe_eq_lexLe s _ (candidates_tie s n ccs mk)
  have hpermC := List.perm_insertionSort (lexLe s) (candidates s n ccs mk)
  have hpermR := List.perm_insertionSort (lexLe s) (List.range n)
  have h2 : (List.insertionSort (lexLe s) (candidates s n ccs mk)).take mk
      = (List.insertionSort (lexLe s) (List.range n)).take mk := by
    apply sorted_take_eq_of_superset mk _ _
      (List.sorted_insertionSort _ _) (List.sorted_insertionSort _ _)
      (hpermC.nodup_iff.mpr (candidates_nodup s n ccs mk))
      (hpermR.nodup_iff.mpr (List.nodup_range n))
    · intro x hx
      have hxc := hpermC.mem_iff.mp hx
      exact hpermR.mem_iff.mpr (List.mem_range.mpr (candidates_lt s n ccs mk x hxc))
    · intro x hx
      rw [mem_take_sort_iff s _ (List.nodup_range n)] at hx
      obtain ⟨hxr, hcnt⟩ := hx
      have hxn : x < n := List.mem_range.mp hxr
      have hcsm : (x / ccs) * ccs ∈ chunkStarts n ccs :=
        div_mul_mem_chunkStarts n ccs x hccs hxn
      have hxc : x ∈ colIdx ((x / ccs) * ccs) (min ((x / ccs) * ccs + ccs) n) := by
        rw [mem_colIdx]
        refine ⟨Nat.div_mul_le_self x ccs, lt_min ?_ hxn⟩
        have hdm : x < x / ccs * ccs + ccs := Nat.lt_div_mul_add hccs
        omega
      have hsubl : (colIdx ((x / ccs) * ccs) (min ((x / ccs) * ccs + ccs) n)).Sublist
          (List.range n) :=
        colIdx_sublist _ _ _ (min_le_right _ _)
      have hcnt2 : (colIdx ((x / ccs) * ccs) (min ((x / ccs) * ccs + ccs) n)).countP
          (fun y => decide (lexLe s y x ∧ y ≠ x)) < mk :=
        lt_of_le_of_lt (List.Sublist.countP_le _ hsubl) hcnt
      have hmem : x ∈ argpartTopK s ((x / ccs) * ccs) (min ((x / ccs) * ccs + ccs) n) mk := by
        unfold argpartTopK
        rw [mem_take_sort_iff s _ (nodup_colIdx _ _)]
        exact ⟨hxc, hcnt2⟩
      have hxcand : x ∈ candidates s n ccs mk := by
        unfold candidates
        rw [List.mem_flatMap]
        exact ⟨(x / ccs) * ccs, hcsm, hmem⟩
      exact hpermC.mem_iff.mpr hxcand
  rw [h1]
  have hkk : k = k ⊓ mk := (min_eq_left hk).symm
  rw [hkk, ← List.take_take, ← List.take_take, h2]

/-- Chunking invariance of the full sorted hit list prefix between two
positive, argpartition-valid corpus chunk sizes. -/
theorem topHits_take_eq_of_two (s : ℕ → ℚ) (n ccs1 ccs2 mk k : ℕ)
    (h1 : 0 < ccs1) (h2 : 0 < ccs2) (hk : k ≤ mk) :
    (topHits s n ccs1 mk).take k = (topHits s n ccs2 mk).take k := by
  rw [topHits_take_eq s n ccs1 mk k h1 hk, topHits_take_eq s n ccs2 mk k h2 hk]

end IRE

namespace IRE

/-- Unfolding of the exception guard. -/
theorem evalOk_true_iff (c : IRConfig) (inp : IRInput) :
    evalOk c inp = true ↔
      (c.mrr_at_k ≠ [] ∧ c.ndcg_at_k ≠ [] ∧ c.accuracy_at_k ≠ [] ∧
        c.precision_recall_at_k ≠ [] ∧
        0 < c.query_chunk_size ∧ 0 < c.corpus_chunk_size ∧
        0 < numQ inp ∧
        chunksOk inp.corpus.length c.corpus_chunk_size (maxK c) = true ∧
        0 ∉ c.precision_recall_at_k ∧ 0 ∉ c.ndcg_at_k) := by
  unfold evalOk
  simp

/-- Unfolding of the per-chunk argpartition bound. -/
theorem chunksOk_iff (n ccs mk : ℕ) :
    chunksOk n ccs mk = true ↔
      ∀ cs ∈ chunkStarts n ccs, mk < min (cs + ccs) n - cs := by
  unfold chunksOk
  rw [List.all_eq_true]
  simp

/-- A returned result implies the guard held. -/
theorem evalOk_of_some (c : IRConfig) (inp : IRInput) (raw : ℕ → ℕ → XScore)
    (r : EvalResult) (h : evalIR c inp raw = some r) : evalOk c inp = true := by
  by_contra hq
  have hf : evalOk c inp = false := by
    revert hq; cases evalOk c inp <;> simp
  rw [evalIR, hf] at h
  simp at h

/-- When the guard holds, `evalIR` returns exactly the metric record. -/
theorem evalIR_of_ok (c : IRConfig) (inp : IRInput) (raw : ℕ → ℕ → XScore)
    (h : evalOk c inp = true) :
    evalIR c inp raw = some
      { num_hits_at_k := c.accuracy_at_k.map (fun k => (k, accMetric c inp raw k))
        precisions_at_k := c.precision_recall_at_k.map (fun k => (k, precMetric c inp raw k))
        recall_at_k := c.precision_recall_at_k.map (fun k => (k, recallMetric c inp raw k))
        mrrs := c.mrr_at_k.map (fun k => (k, mrrAgg c inp raw k))
        retScore := mrrAgg c inp raw (c.mrr_at_k.foldr max 0) } := by
  rw [evalIR, h]
  simp

/-- Mean of a list-family accumulator entry: the duplicate-count factor in
numerator and denominator cancels, leaving the per-query mean. -/
theorem npMean_accumLists (ks : List ℕ) (val : ℕ → ℕ → ℚ) (qs : List ℕ) (j : ℕ)
    (hj : j ∈ ks) :
    npMean (accumLists ks val qs j)
      = ((qs.map (fun q => val q j)).sum) / (qs.length : ℚ) := by
  rw [accumLists_apply]
  unfold npMean
  have hsum : (qs.flatMap (fun q => List.replicate (ks.count j) (val q j))).sum
      = (ks.count j : ℚ) * (qs.map (fun q => val q j)).sum := by
    induction qs with
    | nil => simp
    | cons q qs ih =>
      rw [List.flatMap_cons, List.sum_append, ih, List.map_cons, List.sum_cons,
        List.sum_replicate, nsmul_eq_mul]
      ring
  have hlen : (qs.flatMap (fun q => List.replicate (ks.count j) (val q j))).length
      = ks.count j * qs.length := by
    clear hsum
    induction qs with
    | nil => simp
    | cons q qs ih =>
      rw [List.flatMap_cons, List.length_append, ih, List.length_replicate,
        List.length_cons]
      ring
  rw [hsum, hlen]
  have hc : (ks.count j : ℚ) ≠ 0 := by
    have := List.count_pos_iff.mpr hj
    exact_mod_cast this.ne'
  push_cast
  rw [mul_div_mul_left _ _ hc]

/-- Division of rationals by a common non-negative denominator is monotone. -/
theorem div_le_div_nonneg_denom (a b d : ℚ) (h : a ≤ b) (hd : 0 ≤ d) :
    a / d ≤ b / d := by
  rcases hd.lt_or_eq with h1 | h1
  · exact (div_le_div_iff_of_pos_right h1).mpr h
  · rw [← h1]
    simp

/-- A shorter take-prefix is a sublist of a longer one. -/
theorem take_sublist_take {α : Type} (l : List α) (k1 k2 : ℕ) (h : k1 ≤ k2) :
    (l.take k1).Sublist (l.take k2) := by
  have he : l.take k1 = (l.take k2).take k1 := by
    rw [List.take_take, min_eq_left h]
  rw [he]
  exact List.take_sublist _ _

/-- Per-query accuracy indicator is monotone in k. -/
theorem accContrib_mono (c : IRConfig) (inp : IRInput) (raw : ℕ → ℕ → XScore)
    (q k1 k2 : ℕ) (h : k1 ≤ k2) :
    accContrib c inp raw q k1 ≤ accContrib c inp raw q k2 := by
  unfold accContrib
  by_cases h1 : ((queryHitsC c inp raw q).take k1).any (hitRel inp (qidAt inp q))
  · have h2 : ((queryHitsC c inp raw q).take k2).any (hitRel inp (qidAt inp q)) = true := by
      rw [List.any_eq_true] at h1 ⊢
      obtain ⟨x, hx, hpx⟩ := h1
      exact ⟨x, (take_sublist_take _ _ _ h).subset hx, hpx⟩
    rw [if_pos h1, if_pos h2]
  · rw [if_neg h1]
    by_cases h2 : ((queryHitsC c inp raw q).take k2).any (hitRel inp (qidAt inp q)) <;>
      simp [h2]

/-- Per-query relevant-hit count is monotone in k. -/
theorem numCorrectAt_mono (c : IRConfig) (inp : IRInput) (raw : ℕ → ℕ → XScore)
    (q k1 k2 : ℕ) (h : k1 ≤ k2) :
    numCorrectAt c inp raw q k1 ≤ numCorrectAt c inp raw q k2 :=
  List.Sublist.countP_le _ (take_sublist_take _ _ _ h)

/-- Per-query recall is monotone in k. -/
theorem recallVal_mono (c : IRConfig) (inp : IRInput) (raw : ℕ → ℕ → XScore)
    (q k1 k2 : ℕ) (h : k1 ≤ k2) :
    recallVal c inp raw q k1 ≤ recallVal c inp raw q k2 := by
  unfold recallVal
  apply div_le_div_nonneg_denom
  · exact_mod_cast numCorrectAt_mono c inp raw q k1 k2 h
  · positivity

/-- The ideal-DCG input is truncated internally: DCG of an all-ones sequence
of length `m` at `k` sums the first `min m k` discount terms. -/
theorem computeDcgAtK_replicate (m k : ℕ) :
    computeDcgAtK (List.replicate m 1) k
      = ((List.range (min m k)).map (fun i : ℕ => 1 / Real.logb 2 ((i : ℝ) + 2))).sum := by
  unfold computeDcgAtK
  rw [List.length_replicate]
  congr 1
  apply List.map_congr_left
  intro i hi
  rw [List.mem_range] at hi
  have him : i < m := lt_of_lt_of_le hi (min_le_left _ _)
  rw [List.getD_eq_getElem _ _ (by simpa using him)]
  simp

end IRE

namespace IRE

/-- C2: the evaluation operation returns, as its scalar result, the
aggregated MRR at the maximum k of the requested MRR k-list: the sum of
per-query reciprocal-rank contributions divided by the number of retained
queries (stated for duplicate-free k-lists, the spec's k values being
sets). -/
theorem C2_return_mrr (c : IRConfig) (inp : IRInput) (raw : ℕ → ℕ → XScore)
    (r : EvalResult) (h : evalIR c inp raw = some r) (hnd : c.mrr_at_k.Nodup) :
    r.retScore = ((List.range (numQ inp)).map
        (fun q => mrrContrib c inp raw q (c.mrr_at_k.foldr max 0))).sum
      / (numQ inp : ℚ) := by
  have hok := evalOk_of_some c inp raw r h
  obtain ⟨hm, _, _, _, hqcs, _, _, _, _, _⟩ := (evalOk_true_iff c inp).mp hok
  rw [evalIR_of_ok c inp raw hok, Option.some_inj] at h
  subst h
  show mrrAgg c inp raw (c.mrr_at_k.foldr max 0) = _
  unfold mrrAgg
  rw [accumFamily_apply,
    List.count_eq_one_of_mem hnd (foldr_max_mem _ hm)]
  unfold qIdxs
  rw [chunkedIdx_eq _ _ hqcs]
  simp

/-- Witness for C2 at the concrete instance `cfgW`, `inpW`, `rawW`. -/
theorem C2_witness :
    EvalResult.retScore
        { num_hits_at_k := cfgW.accuracy_at_k.map (fun k => (k, accMetric cfgW inpW rawW k))
          precisions_at_k :=
            cfgW.precision_recall_at_k.map (fun k => (k, precMetric cfgW inpW rawW k))
          recall_at_k :=
            cfgW.precision_recall_at_k.map (fun k => (k, recallMetric cfgW inpW rawW k))
          mrrs := cfgW.mrr_at_k.map (fun k => (k, mrrAgg cfgW inpW rawW k))
          retScore := mrrAgg cfgW inpW rawW (cfgW.mrr_at_k.foldr max 0) }
      = ((List.range (numQ inpW)).map
          (fun q => mrrContrib cfgW inpW rawW q (cfgW.mrr_at_k.foldr max 0))).sum
        / (numQ inpW : ℚ) :=
  C2_return_mrr cfgW inpW rawW _ (evalIR_of_ok cfgW inpW rawW (by decide)) (by decide)

/-- C3: for every retained query and requested NDCG k, the per-query NDCG@k
is the DCG of the binary relevance sequence of the top-k hits divided by the
DCG of an all-ones sequence of length `|relevance_set|`, with the
denominator truncated to `min |relevance_set| k` positions by the DCG
helper itself; the NDCG list accumulator collects exactly these values. -/
theorem C3_ndcg_formula (c : IRConfig) (inp : IRInput) (raw : ℕ → ℕ → XScore)
    (q k : ℕ) (hq : q < numQ inp) (hk : k ∈ c.ndcg_at_k) :
    ndcgVal c inp raw q k
        = computeDcgAtK (((queryHitsC c inp raw q).take k).map
            (fun i => if hitRel inp (qidAt inp q) i then 1 else 0)) k
          / computeDcgAtK (List.replicate (relSetOf inp (qidAt inp q)).card 1) k
      ∧ computeDcgAtK (List.replicate (relSetOf inp (qidAt inp q)).card 1) k
        = ((List.range (min (relSetOf inp (qidAt inp q)).card k)).map
            (fun i : ℕ => 1 / Real.logb 2 ((i : ℝ) + 2))).sum
      ∧ accumLists c.ndcg_at_k (ndcgVal c inp raw) (qIdxs c inp) k
        = (qIdxs c inp).flatMap
            (fun q2 => List.replicate (c.ndcg_at_k.count k) (ndcgVal c inp raw q2 k)) :=
  ⟨rfl, computeDcgAtK_replicate _ _, accumLists_apply _ _ _ _⟩

/-- Witness for C3 at the concrete instance `cfgW`, `inpW`, `rawW`. -/
theorem C3_witness :
    ndcgVal cfgW inpW rawW 0 1
        = computeDcgAtK (((queryHitsC cfgW inpW rawW 0).take 1).map
            (fun i => if hitRel inpW (qidAt inpW 0) i then 1 else 0)) 1
          / computeDcgAtK (List.replicate (relSetOf inpW (qidAt inpW 0)).card 1) 1
      ∧ computeDcgAtK (List.replicate (relSetOf inpW (qidAt inpW 0)).card 1) 1
        = ((List.range (min (relSetOf inpW (qidAt inpW 0)).card 1)).map
            (fun i : ℕ => 1 / Real.logb 2 ((i : ℝ) + 2))).sum
      ∧ accumLists cfgW.ndcg_at_k (ndcgVal cfgW inpW rawW) (qIdxs cfgW inpW) 1
        = (qIdxs cfgW inpW).flatMap
            (fun q2 => List.replicate (cfgW.ndcg_at_k.count 1) (ndcgVal cfgW inpW rawW q2 1)) :=
  C3_ndcg_formula cfgW inpW rawW 0 1 (by decide) (by decide)

/-- C4: at construction the retained query-id list is exactly the filter, in
input order, of the query keys present in `relevant_docs` with a non-empty
relevance set, and the corpus-id list is the full ordered key list of the
corpus. -/
theorem C4_construction (inp : IRInput) :
    queriesIds inp = (inp.queries.map Prod.fst).filter (retainedQ inp.relevant_docs)
      ∧ (∀ qid, qid ∈ queriesIds inp ↔ qid ∈ inp.queries.map Prod.fst ∧
          ∃ s, inp.relevant_docs.lookup qid = some s ∧ 0 < s.card)
      ∧ corpusIds inp = inp.corpus.map Prod.fst := by
  refine ⟨queriesIds_eq_filter inp, ?_, rfl⟩
  intro qid
  rw [queriesIds_eq_filter, List.mem_filter]
  constructor
  · rintro ⟨h1, h2⟩
    refine ⟨h1, ?_⟩
    unfold retainedQ at h2
    cases hc : inp.relevant_docs.lookup qid with
    | none => rw [hc] at h2; simp at h2
    | some s =>
      rw [hc] at h2
      simp only [decide_eq_true_eq] at h2
      exact ⟨s, rfl, h2⟩
  · rintro ⟨h1, s, hs, hpos⟩
    refine ⟨h1, ?_⟩
    unfold retainedQ
    rw [hs]
    simpa using hpos

/-- C5 counterexample: with `precision_recall_at_k = [1, 3]` the header row
interleaves `Precision@k, Recall@k` per k, and differs from the claimed
"all Precision@k then all Recall@k" layout. -/
theorem C5_counterexample : csvHeaders cfgHdr ≠ specCsvHeaders cfgHdr := by decide

/-- C5 amended: the header row and the persisted data row lay out columns as
`epoch, steps`, the Accuracy@k columns, then per precision/recall k a
`Precision@k` column immediately followed by a `Recall@k` column
(interleaved), then the MRR@k columns, then the NDCG@k columns, each family
in the order its k-list was supplied at construction. -/
theorem C5_report_layout (c : IRConfig) (epoch steps : ℤ)
    (acc prec recl mrr : ℕ → ℚ) (ndcg : ℕ → ℝ) :
    csvHeaders c
        = ["epoch", "steps"]
          ++ c.accuracy_at_k.map (fun k => "Accuracy@" ++ toString k)
          ++ c.precision_recall_at_k.flatMap
              (fun k => ["Precision@" ++ toString k, "Recall@" ++ toString k])
          ++ c.mrr_at_k.map (fun k => "MRR@" ++ toString k)
          ++ c.ndcg_at_k.map (fun k => "NDCG@" ++ toString k)
      ∧ outputData c epoch steps acc prec recl mrr ndcg
        = [(epoch : ℝ), (steps : ℝ)]
          ++ c.accuracy_at_k.map (fun k => ((acc k : ℚ) : ℝ))
          ++ c.precision_recall_at_k.flatMap
              (fun k => [((prec k : ℚ) : ℝ), ((recl k : ℚ) : ℝ)])
          ++ c.mrr_at_k.map (fun k => ((mrr k : ℚ) : ℝ))
          ++ c.ndcg_at_k.map ndcg := by
  constructor
  · unfold csvHeaders
    simp only [foldl_append_singleton, foldl_append_pair]
  · unfold outputData
    simp only [foldl_append_singleton, foldl_append_pair]

/-- C6 counterexample: with an empty `mrr_at_k` list, `__call__` does not
complete (line 85 raises `max() arg is an empty sequence`). -/
theorem C6_counterexample : evalIR cfgWempty inpW rawW = none := by decide

/-- C6 amended: if any of the four per-metric k-lists is empty, the
evaluation operation raises at the `max_k` computation and produces no
metrics at all; all four lists must be non-empty for evaluation to
complete. -/
theorem C6_empty_k_list (c : IRConfig) (inp : IRInput) (raw : ℕ → ℕ → XScore)
    (h : c.mrr_at_k = [] ∨ c.ndcg_at_k = [] ∨ c.accuracy_at_k = [] ∨
      c.precision_recall_at_k = []) :
    evalIR c inp raw = none := by
  have hf : evalOk c inp = false := by
    unfold evalOk
    rcases h with h | h | h | h <;> simp [h]
  rw [evalIR, hf]
  simp

/-- Witness for C6 at the concrete instance `cfgWempty`, `inpW3`, `rawW3`. -/
theorem C6_witness : evalIR cfgWempty inpW3 rawW3 = none :=
  C6_empty_k_list cfgWempty inpW3 rawW3 (Or.inl rfl)

/-- C7 counterexample: a `+inf` similarity score at entry (0, 1) is replaced
by the largest finite double, not by 0, and this non-zero value is exactly
the score function ranked by the evaluator's top-k selection and sort. -/
theorem C7_counterexample :
    rawWinf 0 1 = XScore.pinf ∧ usedScore rawWinf 0 1 ≠ 0
      ∧ queryHitsC cfgW inpW rawWinf 0
        = topHits (usedScore rawWinf 0) inpW.corpus.length cfgW.corpus_chunk_size
            (maxK cfgW) := by
  refine ⟨rfl, ?_, rfl⟩
  show nanToNum (rawWinf 0 1) ≠ 0
  have h : rawWinf 0 1 = XScore.pinf := rfl
  rw [h]
  show float64Max ≠ 0
  unfold float64Max
  positivity

/-- C7 amended: the value used for top-k selection, sorting and metric
computation is `nan_to_num` of the raw score with numpy's defaults: NaN
becomes 0, `+inf` becomes the largest finite double `(2^53-1)*2^971`,
`-inf` its negation, and finite scores pass through unchanged. -/
theorem C7_nan_to_num (raw : ℕ → ℕ → XScore) (q c : ℕ) :
    (raw q c = XScore.nan → usedScore raw q c = 0)
      ∧ (raw q c = XScore.pinf → usedScore raw q c = float64Max)
      ∧ (raw q c = XScore.ninf → usedScore raw q c = -float64Max)
      ∧ ∀ x : ℚ, raw q c = XScore.fin x → usedScore raw q c = x := by
  refine ⟨fun h => ?_, fun h => ?_, fun h => ?_, fun x h => ?_⟩ <;>
    · unfold usedScore
      rw [h]
      rfl

/-- Witness for C7 at the concrete instance `rawWinf`. -/
theorem C7_witness : usedScore rawWinf 0 1 = float64Max :=
  (C7_nan_to_num rawWinf 0 1).2.1 rfl

/-- C8: for every retained query and requested precision/recall k, Recall@k
is the relevant-hit count among the top-k divided by the query's
relevance-set size, that divisor is non-zero by the construction invariant,
and the recall list accumulator collects exactly these per-query values. -/
theorem C8_recall_wellformed (c : IRConfig) (inp : IRInput) (raw : ℕ → ℕ → XScore)
    (q k : ℕ) (hq : q < numQ inp) (hk : k ∈ c.precision_recall_at_k) :
    recallVal c inp raw q k
        = (numCorrectAt c inp raw q k : ℚ) / ((relSetOf inp (qidAt inp q)).card : ℚ)
      ∧ (relSetOf inp (qidAt inp q)).card ≠ 0
      ∧ accumLists c.precision_recall_at_k (recallVal c inp raw) (qIdxs c inp) k
        = (qIdxs c inp).flatMap
            (fun q2 => List.replicate (c.precision_recall_at_k.count k)
              (recallVal c inp raw q2 k)) :=
  ⟨rfl, (relSetOf_card_pos inp q hq).ne', accumLists_apply _ _ _ _⟩

/-- Witness for C8 at the concrete instance `cfgW`, `inpW`, `rawW`. -/
theorem C8_witness :
    recallVal cfgW inpW rawW 0 1
        = (numCorrectAt cfgW inpW rawW 0 1 : ℚ) / ((relSetOf inpW (qidAt inpW 0)).card : ℚ)
      ∧ (relSetOf inpW (qidAt inpW 0)).card ≠ 0
      ∧ accumLists cfgW.precision_recall_at_k (recallVal cfgW inpW rawW) (qIdxs cfgW inpW) 1
        = (qIdxs cfgW inpW).flatMap
            (fun q2 => List.replicate (cfgW.precision_recall_at_k.count 1)
              (recallVal cfgW inpW rawW q2 1)) :=
  C8_recall_wellformed cfgW inpW rawW 0 1 (by decide) (by decide)

/-- C9: within one evaluation, for requested k values `k1 ≤ k2` (duplicate
free, as the spec's k sets are), the aggregated Accuracy@k and Recall@k
never decrease when k increases. -/
theorem C9_monotone (c : IRConfig) (inp : IRInput) (raw : ℕ → ℕ → XScore)
    (k1 k2 : ℕ) (hk : k1 ≤ k2) (hnd : c.accuracy_at_k.Nodup)
    (ha1 : k1 ∈ c.accuracy_at_k) (ha2 : k2 ∈ c.accuracy_at_k)
    (hp1 : k1 ∈ c.precision_recall_at_k) (hp2 : k2 ∈ c.precision_recall_at_k) :
    accMetric c inp raw k1 ≤ accMetric c inp raw k2
      ∧ recallMetric c inp raw k1 ≤ recallMetric c inp raw k2 := by
  constructor
  · unfold accMetric
    apply div_le_div_nonneg_denom _ _ _ ?_ (by positivity)
    rw [accumFamily_apply, accumFamily_apply,
      List.count_eq_one_of_mem hnd ha1, List.count_eq_one_of_mem hnd ha2]
    simp only [Nat.cast_one, one_mul]
    apply List.sum_le_sum
    intro q _
    exact accContrib_mono c inp raw q k1 k2 hk
  · unfold recallMetric
    rw [npMean_accumLists _ _ _ _ hp1, npMean_accumLists _ _ _ _ hp2]
    apply div_le_div_nonneg_denom _ _ _ ?_ (by positivity)
    apply List.sum_le_sum
    intro q _
    exact recallVal_mono c inp raw q k1 k2 hk

/-- Witness for C9 at the concrete instance `cfgW12`, `inpW3`, `rawW3`. -/
theorem C9_witness :
    accMetric cfgW12 inpW3 rawW3 1 ≤ accMetric cfgW12 inpW3 rawW3 2
      ∧ recallMetric cfgW12 inpW3 rawW3 1 ≤ recallMetric cfgW12 inpW3 rawW3 2 :=
  C9_monotone cfgW12 inpW3 rawW3 1 2 (by decide) (by decide) (by decide) (by decide)
    (by decide) (by decide)

/-- C10: if some corpus chunk holds at most `max_k` documents the top-k
selection step raises (no metrics are returned), and a successful evaluation
implies every corpus chunk holds strictly more than `max_k` documents. -/
theorem C10_argpartition_bound (c : IRConfig) (inp : IRInput) (raw : ℕ → ℕ → XScore) :
    ((∃ cs ∈ chunkStarts inp.corpus.length c.corpus_chunk_size,
        min (cs + c.corpus_chunk_size) inp.corpus.length - cs ≤ maxK c) →
      evalIR c inp raw = none)
    ∧ ∀ r, evalIR c inp raw = some r →
        ∀ cs ∈ chunkStarts inp.corpus.length c.corpus_chunk_size,
          maxK c < min (cs + c.corpus_chunk_size) inp.corpus.length - cs := by
  constructor
  · rintro ⟨cs, hcs, hle⟩
    have hfalse : chunksOk inp.corpus.length c.corpus_chunk_size (maxK c) = false := by
      cases hok : chunksOk inp.corpus.length c.corpus_chunk_size (maxK c) with
      | false => rfl
      | true =>
        have := (chunksOk_iff _ _ _).mp hok cs hcs
        omega
    have hf : evalOk c inp = false := by
      unfold evalOk
      simp [hfalse]
    rw [evalIR, hf]
    simp
  · intro r hr cs hcs
    have hok := evalOk_of_some c inp raw r hr
    obtain ⟨_, _, _, _, _, _, _, hch, _, _⟩ := (evalOk_true_iff c inp).mp hok
    exact (chunksOk_iff _ _ _).mp hch cs hcs

/-- Witness for C10: with `corpus_chunk_size = 1` and `max_k = 1` on the
two-document corpus, the first chunk has width `1 ≤ max_k` and evaluation
returns nothing. -/
theorem C10_witness : evalIR cfgWbad inpW rawW = none :=
  (C10_argpartition_bound cfgWbad inpW rawW).1 ⟨0, by decide, by decide⟩

end IRE

namespace IRE

/-- C1 counterexample: for the same queries, corpus, relevance map and
scores, `corpus_chunk_size = 2` yields metrics while `corpus_chunk_size = 1`
makes every corpus chunk of the two-document corpus have width
`1 ≤ max_k = 1`, so `np.argpartition` raises and no metrics exist: the
outcome is not independent of the choice of positive chunk sizes. -/
theorem C1_counterexample : evalIR cfgW inpW rawW ≠ evalIR cfgWbad inpW rawW := by
  have h1 := evalIR_of_ok cfgW inpW rawW (by decide)
  have h2 : evalIR cfgWbad inpW rawW = none := by decide
  rw [h1, h2]
  simp

/-- C1 amended: for a fixed query set, corpus, relevance map and score
function whose per-query post-`nan_to_num` scores are pairwise distinct over
the corpus (no ties — with tied scores `np.argpartition` may retain either
tied candidate at the `max_k` boundary depending on the chunking, and
`mem_argpartTopK_iff_rank` shows that without ties every admissible
selection coincides with the modelled one), and for any two configurations
that agree on the four k-lists and whose chunk sizes are positive and pass
the argpartition bound (every corpus chunk strictly larger than `max_k`),
the evaluation returns identical metrics, including every aggregated NDCG@k
value. -/
theorem C1_chunking_invariance (c1 c2 : IRConfig) (inp : IRInput)
    (raw : ℕ → ℕ → XScore)
    (hdist : ∀ q, q < numQ inp → ∀ a, a < inp.corpus.length →
      ∀ b, b < inp.corpus.length → a ≠ b → usedScore raw q a ≠ usedScore raw q b)
    (hm : c1.mrr_at_k = c2.mrr_at_k) (hn : c1.ndcg_at_k = c2.ndcg_at_k)
    (ha : c1.accuracy_at_k = c2.accuracy_at_k)
    (hp : c1.precision_recall_at_k = c2.precision_recall_at_k)
    (h1 : evalOk c1 inp = true) (h2 : evalOk c2 inp = true) :
    evalIR c1 inp raw = evalIR c2 inp raw
      ∧ ∀ k, ndcgMetric c1 inp raw k = ndcgMetric c2 inp raw k := by
  obtain ⟨_, _, _, _, hq1, hc1, _, _, _, _⟩ := (evalOk_true_iff c1 inp).mp h1
  obtain ⟨_, _, _, _, hq2, hc2, _, _, _, _⟩ := (evalOk_true_iff c2 inp).mp h2
  have hmk : maxK c1 = maxK c2 := by unfold maxK; rw [hm, hn, ha, hp]
  have hqidx : qIdxs c1 inp = qIdxs c2 inp := by
    unfold qIdxs
    rw [chunkedIdx_eq _ _ hq1, chunkedIdx_eq _ _ hq2]
  have htake : ∀ q k, k ≤ maxK c1 →
      (queryHitsC c1 inp raw q).take k = (queryHitsC c2 inp raw q).take k := by
    intro q k hk
    unfold queryHitsC
    rw [← hmk]
    exact topHits_take_eq_of_two (usedScore raw q) inp.corpus.length _ _ (maxK c1) k
      hc1 hc2 hk
  have haccC : ∀ q k, k ≤ maxK c1 →
      accContrib c1 inp raw q k = accContrib c2 inp raw q k := by
    intro q k hk
    unfold accContrib
    rw [htake q k hk]
  have hnumC : ∀ q k, k ≤ maxK c1 →
      numCorrectAt c1 inp raw q k = numCorrectAt c2 inp raw q k := by
    intro q k hk
    unfold numCorrectAt
    rw [htake q k hk]
  have hprecC : ∀ q k, k ≤ maxK c1 →
      precisionVal c1 inp raw q k = precisionVal c2 inp raw q k := by
    intro q k hk
    unfold precisionVal
    rw [hnumC q k hk]
  have hrecC : ∀ q k, k ≤ maxK c1 →
      recallVal c1 inp raw q k = recallVal c2 inp raw q k := by
    intro q k hk
    unfold recallVal
    rw [hnumC q k hk]
  have hmrrC : ∀ q k, k ≤ maxK c1 →
      mrrContrib c1 inp raw q k = mrrContrib c2 inp raw q k := by
    intro q k hk
    unfold mrrContrib
    rw [htake q k hk]
  have hndcgC : ∀ q k, k ≤ maxK c1 →
      ndcgVal c1 inp raw q k = ndcgVal c2 inp raw q k := by
    intro q k hk
    unfold ndcgVal
    rw [htake q k hk]
  have hAcc : ∀ k, accMetric c1 inp raw k = accMetric c2 inp raw k := by
    intro k
    unfold accMetric
    rw [accumFamily_apply, accumFamily_apply, hqidx, ha]
    by_cases hk : k ∈ c2.accuracy_at_k
    · have hk1 : k ≤ maxK c1 := le_maxK_of_mem (Or.inr (Or.inr (Or.inl (ha ▸ hk))))
      have hmap : (qIdxs c2 inp).map (fun q => accContrib c1 inp raw q k)
          = (qIdxs c2 inp).map (fun q => accContrib c2 inp raw q k) :=
        List.map_congr_left (fun q _ => haccC q k hk1)
      rw [hmap]
    · rw [List.count_eq_zero.mpr hk]
      simp
  have hMrr : ∀ k, mrrAgg c1 inp raw k = mrrAgg c2 inp raw k := by
    intro k
    unfold mrrAgg
    rw [accumFamily_apply, accumFamily_apply, hqidx, hm]
    by_cases hk : k ∈ c2.mrr_at_k
    · have hk1 : k ≤ maxK c1 := le_maxK_of_mem (Or.inl (hm ▸ hk))
      have hmap : (qIdxs c2 inp).map (fun q => mrrContrib c1 inp raw q k)
          = (qIdxs c2 inp).map (fun q => mrrContrib c2 inp raw q k) :=
        List.map_congr_left (fun q _ => hmrrC q k hk1)
      rw [hmap]
    · rw [List.count_eq_zero.mpr hk]
      simp
  have hPrec : ∀ k, precMetric c1 inp raw k = precMetric c2 inp raw k := by
    intro k
    unfold precMetric
    rw [accumLists_apply, accumLists_apply, hqidx, hp]
    by_cases hk : k ∈ c2.precision_recall_at_k
    · have hk1 : k ≤ maxK c1 := le_maxK_of_mem (Or.inr (Or.inr (Or.inr (hp ▸ hk))))
      congr 1
      rw [List.flatMap_def, List.flatMap_def]
      congr 1
      exact List.map_congr_left (fun q _ => by rw [hprecC q k hk1])
    · rw [List.count_eq_zero.mpr hk]
      simp
  have hRec : ∀ k, recallMetric c1 inp raw k = recallMetric c2 inp raw k := by
    intro k
    unfold recallMetric
    rw [accumLists_apply, accumLists_apply, hqidx, hp]
    by_cases hk : k ∈ c2.precision_recall_at_k
    · have hk1 : k ≤ maxK c1 := le_maxK_of_mem (Or.inr (Or.inr (Or.inr (hp ▸ hk))))
      congr 1
      rw [List.flatMap_def, List.flatMap_def]
      congr 1
      exact List.map_congr_left (fun q _ => by rw [hrecC q k hk1])
    · rw [List.count_eq_zero.mpr hk]
      simp
  have hNdcg : ∀ k, ndcgMetric c1 inp raw k = ndcgMetric c2 inp raw k := by
    intro k
    unfold ndcgMetric
    rw [accumLists_apply, accumLists_apply, hqidx, hn]
    by_cases hk : k ∈ c2.ndcg_at_k
    · have hk1 : k ≤ maxK c1 := le_maxK_of_mem (Or.inr (Or.inl (hn ▸ hk)))
      congr 1
      rw [List.flatMap_def, List.flatMap_def]
      congr 1
      exact List.map_congr_left (fun q _ => by rw [hndcgC q k hk1])
    · rw [List.count_eq_zero.mpr hk]
      simp
  refine ⟨?_, hNdcg⟩
  rw [evalIR_of_ok c1 inp raw h1, evalIR_of_ok c2 inp raw h2, Option.some_inj,
    EvalResult.mk.injEq]
  refine ⟨?_, ?_, ?_, ?_, ?_⟩
  · rw [ha]
    exact List.map_congr_left (fun k _ => by rw [hAcc k])
  · rw [hp]
    exact List.map_congr_left (fun k _ => by rw [hPrec k])
  · rw [hp]
    exact List.map_congr_left (fun k _ => by rw [hRec k])
  · rw [hm]
    exact List.map_congr_left (fun k _ => by rw [hMrr k])
  · rw [hm, hMrr _]

/-- Witness for C1 at the concrete instance `inpW`, `rawW` (tie-free scores
1 and 0) with the two valid chunkings `cfgW` (query chunk 1, corpus chunk 2)
and `cfgW2` (query chunk 2, corpus chunk 3). -/
theorem C1_chunking_invariance_witness :
    evalIR cfgW inpW rawW = evalIR cfgW2 inpW rawW
      ∧ ndcgMetric cfgW inpW rawW 1 = ndcgMetric cfgW2 inpW rawW 1 := by
  have h := C1_chunking_invariance cfgW cfgW2 inpW rawW
    (by
      intro q hq a ha b hb hab
      have ha2 : a < 2 := ha
      have hb2 : b < 2 := hb
      interval_cases a <;> interval_cases b <;>
        simp_all [usedScore, rawW, nanToNum])
    rfl rfl rfl rfl (by decide) (by decide)
  exact ⟨h.1, h.2 1⟩

end IRE
